import Mathlib

/-!
# Verification of `msgcodegen.py` (riak_pb message-code generator)

A shallow embedding of the protocol message-code generator:
`MessageCodeMapping` (constant-name derivation, module-name derivation,
best-effort class resolution), the `_load` accumulation step and the
`_generate*` emission steps of the `build_messages` command are modelled
as pure Lean functions; Python's dynamic module introspection is
abstracted as an explicit resolution environment.
-/

namespace MsgCodeGen

/-! ## Character classes (ASCII, as used by the Python 2 regexes) -/

/-- `[A-Z]` of the regexes. -/
def isUpperC (c : Char) : Bool := 65 ≤ c.toNat && c.toNat ≤ 90

/-- `[a-z]` of the regexes. -/
def isLowerC (c : Char) : Bool := 97 ≤ c.toNat && c.toNat ≤ 122

/-- `\d` of the regexes. -/
def isDigitC (c : Char) : Bool := 48 ≤ c.toNat && c.toNat ≤ 57

/-- ASCII upper-casing of a single character, as Python 2 `str.upper`
applies it pointwise: `a`-`z` is shifted down by 32, all else unchanged. -/
def asciiUpper (c : Char) : Char :=
  if isLowerC c then Char.ofNat (c.toNat - 32) else c

/-! ## The three rewriting passes of `_message_code_name` -/

/-- `re.sub(r"^Rpb", "", s)`: the pattern is anchored, so at most the
leading occurrence of `Rpb` is removed. -/
def stripRpb (l : List Char) : List Char :=
  match l with
  | 'R' :: 'p' :: 'b' :: rest => rest
  | _ => l

/-- Scanning engine for `re.sub(r"([A-Z]+)([A-Z][a-z])", r"\1_\2", s)`.
At each position, a leftmost match takes the maximal uppercase run
(greedy `[A-Z]+`, backtracking one character for `[A-Z]`), requires the
following character to be lowercase, inserts `_` before the last
uppercase letter of the run, and resumes after the whole match.  The
fuel argument only serves structural termination; `subAcronym` supplies
fuel equal to the list length, which one step never exhausts because
every step consumes at least one character. -/
def subAcronymFuel : Nat → List Char → List Char
  | 0, l => l
  | _ + 1, [] => []
  | fuel + 1, c :: cs =>
    if isUpperC c then
      match cs.dropWhile isUpperC, cs.takeWhile isUpperC with
      | d :: ts, t :: tw =>
        if isLowerC d then
          (c :: (t :: tw).dropLast) ++ '_' :: (t :: tw).getLastD 'A' :: d ::
            subAcronymFuel fuel ts
        else
          c :: subAcronymFuel fuel cs
      | _, _ => c :: subAcronymFuel fuel cs
    else
      c :: subAcronymFuel fuel cs

/-- `re.sub(r"([A-Z]+)([A-Z][a-z])", r"\1_\2", s)` over the characters. -/
def subAcronym (l : List Char) : List Char := subAcronymFuel l.length l

/-- `re.sub(r"([a-z\d])([A-Z])", r"\1_\2", s)`: leftmost non-overlapping
two-character matches, scanning resumes after each match. -/
def subCamel : List Char → List Char
  | [] => []
  | [c] => [c]
  | c :: d :: rest =>
    if (isLowerC c || isDigitC c) && isUpperC d then
      c :: '_' :: d :: subCamel rest
    else
      c :: subCamel (d :: rest)

/-- `word.replace("-", "_")`: every hyphen becomes an underscore. -/
def dashToUnderscore (c : Char) : Char := if c = '-' then '_' else c

/-- `MessageCodeMapping._message_code_name`: strip a leading `Rpb`,
insert underscores at acronym and camelCase boundaries, replace hyphens,
upper-case, and prepend `MSG_CODE_`. -/
def message_code_name (message : String) : String :=
  "MSG_CODE_" ++ String.mk
    ((((subCamel (subAcronym (stripRpb message.data))).map
        dashToUnderscore).map asciiUpper))

/-! ## Decimal rendering of message codes (Python `str(int)`) -/

/-- Digits of a positive number, most significant first.  The fuel
argument only serves structural termination: `n` itself is enough fuel
because the value shrinks by a factor of ten each step. -/
def natDecFuel : Nat → Nat → List Char
  | 0, _ => []
  | fuel + 1, n =>
    if n = 0 then [] else natDecFuel fuel (n / 10) ++ [Char.ofNat (48 + n % 10)]

/-- Decimal rendering of a natural number. -/
def natDec (n : Nat) : List Char := if n = 0 then ['0'] else natDecFuel n n

/-- Decimal rendering of an integer, `-` sign for negatives — the
characters Python's `"{1}".format(code)` produces for an `int`. -/
def intDec (i : Int) : List Char :=
  if i < 0 then '-' :: natDec i.natAbs else natDec i.toNat

/-! ## `MessageCodeMapping` -/

/-- One row of the catalog after construction: the three raw fields and
the three derived fields computed once by `MessageCodeMapping.__init__`. -/
structure Message where
  code : Int
  message : String
  proto : String
  message_code_name : String
  module_name : String
  /-- `_message_class()` outcome: `some n` when the class resolves, with
  `n` its `__name__`; `none` when the module or the attribute is missing. -/
  message_class : Option String
  deriving DecidableEq, Repr

/-- A resolution environment abstracting Python's dynamic import plus
`__dict__` lookup of `_message_class`: given a module name and a message
name, it yields the `__name__` of the resolved class, or `none`. -/
def ResolveEnv := String → String → Option String

/-- `MessageCodeMapping.__init__` with the integer code already parsed:
stores the fields and computes `message_code_name`, `module_name`
(`"riak_pb.{proto}_pb2"`) and `message_class`. -/
def mkMessage (env : ResolveEnv) (code : Int) (message proto : String) : Message :=
  { code := code
    message := message
    proto := proto
    message_code_name := message_code_name message
    module_name := "riak_pb." ++ proto ++ "_pb2"
    message_class := env ("riak_pb." ++ proto ++ "_pb2") message }

/-! ## Parsing a CSV row -/

/-- Numeric value of an all-digits character list, `none` otherwise. -/
def digitsVal : List Char → Option Nat
  | [] => none
  | l => l.foldl (fun acc c =>
      match acc with
      | some v => if isDigitC c then some (v * 10 + (c.toNat - 48)) else none
      | none => none) (some 0)

/-- Python 2 `int(s)` on a string: surrounding whitespace is ignored, an
optional single sign precedes a non-empty run of decimal digits. -/
def parseInt (s : String) : Option Int :=
  let isSpace := fun c : Char => c = ' ' || c = '\t' || c = '\n' || c = '\r'
  let trimmed := ((s.data.dropWhile isSpace).reverse.dropWhile isSpace).reverse
  match trimmed with
  | '-' :: rest => (digitsVal rest).map (fun n => -(n : Int))
  | '+' :: rest => (digitsVal rest).map (fun n => (n : Int))
  | l => (digitsVal l).map (fun n => (n : Int))

/-- `MessageCodeMapping(*row)`: a row must have exactly three fields
(else `TypeError`) and its first field must parse as an integer (else
`ValueError`); both exceptions abort `_load`. -/
def parseRow (env : ResolveEnv) (row : List String) : Except String Message :=
  match row with
  | [code, message, proto] =>
    match parseInt code with
    | some c => .ok (mkMessage env c message proto)
    | none => .error "ValueError: invalid literal for int()"
  | _ => .error "TypeError: __init__ takes exactly 4 arguments"

/-! ## The accumulator state and `_load` -/

/-- The three accumulator collections of `build_messages`.  In the
source they are class-level Python sets; `messages` and
`empty_responses` hold `MessageCodeMapping` objects, whose default
(identity-based) hashing admits duplicate equal-valued entries, so both
are modelled as insertion-ordered lists to which every `add` appends.
`pb_imports` holds strings, which hash by value, so insertion
deduplicates. -/
structure GenState where
  pb_imports : List String
  messages : List Message
  empty_responses : List Message
  deriving DecidableEq, Repr

/-- The accumulators at the start of a fresh Python process. -/
def emptyState : GenState := ⟨[], [], []⟩

/-- `set.add` on the string set `_pb_imports`: value-based dedup. -/
def insertImport (l : List String) (s : String) : List String :=
  if s ∈ l then l else l ++ [s]

/-- The body of the `_load` loop for one row: construct the mapping, add
it to `_messages`, add its module to `_pb_imports`, and record it in
`_empty_responses` when its class did not resolve. -/
def loadRow (env : ResolveEnv) (st : GenState) (row : List String) :
    Except String GenState := do
  let m ← parseRow env row
  pure { pb_imports := insertImport st.pb_imports m.module_name
         messages := st.messages ++ [m]
         empty_responses :=
           st.empty_responses ++ (if m.message_class.isNone then [m] else []) }

/-- `build_messages._load`: fold `loadRow` over the CSV rows, stopping
at the first exception. -/
def load (env : ResolveEnv) (st : GenState) : List (List String) → Except String GenState
  | [] => .ok st
  | row :: rest =>
    match loadRow env st row with
    | .ok st' => load env st' rest
    | .error e => .error e

/-! ## Sorting (Python `sorted`, stable) -/

/-- Insert `a` before the first element it compares `le` to; processing
the original list right-to-left in `sortLe` makes this the classic
stable insertion sort, matching Python's stable `sorted`. -/
def insertLe (le : α → α → Bool) (a : α) : List α → List α
  | [] => [a]
  | b :: bs => if le a b then a :: b :: bs else b :: insertLe le a bs

/-- Stable sort by the boolean relation `le`. -/
def sortLe (le : α → α → Bool) : List α → List α
  | [] => []
  | a :: as => insertLe le a (sortLe le as)

/-- The comparison `MessageCodeMapping.__cmp__` induces: by `code`. -/
def msgLe (a b : Message) : Bool := a.code ≤ b.code

/-- `sorted(...)` over message objects, as used in every `_generate_*`. -/
def sortMessages (l : List Message) : List Message := sortLe msgLe l

/-- Lexicographic comparison of character lists by code point — the
order Python 2 applies to byte strings. -/
def listLe : List Char → List Char → Bool
  | [], _ => true
  | _ :: _, [] => false
  | a :: as, b :: bs =>
    if a.toNat < b.toNat then true
    else if b.toNat < a.toNat then false
    else listLe as bs

/-- `sorted(...)` over strings (lexicographic, for `_pb_imports`). -/
def strLe (a b : String) : Bool := listLe a.data b.data

/-! ## The `_generate_*` steps -/

/-- `os.linesep` (POSIX). -/
def linesep : String := "\n"

/-- `_indented_item_sep`. -/
def indented_item_sep : String := "," ++ linesep ++ "    "

/-- The `LICENSE` header template with the current year substituted (the
year is a parameter of the embedding since it comes from `date.today()`). -/
def license (year : Nat) : String :=
  "# Copyright " ++ String.mk (natDec year) ++ " Basho Technologies, Inc.\n#\n" ++
  "# This file is provided to you under the Apache License,\n" ++
  "# Version 2.0 (the \"License\"); you may not use this file\n" ++
  "# except in compliance with the License.  You may obtain\n" ++
  "# a copy of the License at\n#\n" ++
  "#  http://www.apache.org/licenses/LICENSE-2.0\n#\n" ++
  "# Unless required by applicable law or agreed to in writing,\n" ++
  "# software distributed under the License is distributed on an\n" ++
  "# \"AS IS\" BASIS, WITHOUT WARRANTIES OR CONDITIONS OF ANY\n" ++
  "# KIND, either express or implied.  See the License for the\n" ++
  "# specific language governing permissions and limitations\n" ++
  "# under the License.\n"

/-- `_docstring` (its first two Python string literals are adjacent and
therefore concatenated). -/
def docstring : List String :=
  ["# This is a generated file. DO NOT EDIT.", "", "\"\"\"",
   "Constants and mappings between Riak protocol codes and messages.",
   "\"\"\"", ""]

/-- `_generate_doc`: license header then docstring lines. -/
def generate_doc (year : Nat) : List String := license year :: docstring

/-- `_generate_imports`: one `import` line per entry of the sorted
`_pb_imports` set. -/
def generate_imports (st : GenState) : List String :=
  (sortLe strLe st.pb_imports).map (fun im => "import " ++ im)

/-- The constant line `"{0} = {1}".format(message_code_name, code)`. -/
def code_line (m : Message) : String :=
  m.message_code_name ++ " = " ++ String.mk (intDec m.code)

/-- The constant-table lines of `_generate_codes` (sorted by code). -/
def codes_lines (st : GenState) : List String :=
  (sortMessages st.messages).map code_line

/-- `_generate_codes`: section header plus the constant table. -/
def generate_codes (st : GenState) : List String :=
  ["", "# Protocol codes"] ++ codes_lines st

/-- The constant names listed inside `EMPTY_RESPONSES`, in code order. -/
def empty_names (st : GenState) : List String :=
  (sortMessages st.empty_responses).map Message.message_code_name

/-- `_generate_empties`: the `EMPTY_RESPONSES` list literal. -/
def generate_empties (st : GenState) : List String :=
  ["", "# These responses don't include messages", "EMPTY_RESPONSES = [",
   "    " ++ String.intercalate indented_item_sep (empty_names st), "]"]

/-- The class reference rendered for one message by `_generate_mapping`:
fully qualified `module.__name__` when resolved, the literal `None`
otherwise. -/
def klass_str (m : Message) : String :=
  match m.message_class with
  | some k => m.module_name ++ "." ++ k
  | none => "None"

/-- The `(constantName, value)` association `_generate_mapping` renders
for one message. -/
def mapping_pair (m : Message) : String × String :=
  (m.message_code_name, klass_str m)

/-- Python `pair.split(' ')` over characters: split at every single
space, keeping empty fragments. -/
def splitSpace : List Char → List (List Char)
  | [] => [[]]
  | c :: rest =>
    if c = ' ' then [] :: splitSpace rest
    else
      match splitSpace rest with
      | t :: ts => (c :: t) :: ts
      | [] => [[c]]

/-- `_generate_mapping`: render `name: klass`, and when the rendering
exceeds 76 characters re-join its space-separated words with
`linesep + 4 spaces`. -/
def generate_mapping (m : Message) : String :=
  let pair := (mapping_pair m).1 ++ ": " ++ (mapping_pair m).2
  if pair.length > 76 then
    String.intercalate (linesep ++ "    ")
      ((splitSpace pair.data).map String.mk)
  else pair

/-- The `(constantName, value)` pairs of the emitted `MESSAGE_CLASSES`
mapping, in the order `_generate_classes` renders them. -/
def mapping_pairs (st : GenState) : List (String × String) :=
  (sortMessages st.messages).map mapping_pair

/-- `_generate_classes`: the `MESSAGE_CLASSES` mapping literal. -/
def generate_classes (st : GenState) : List String :=
  ["", "# Mapping from code to protobuf class", "MESSAGE_CLASSES = \x7b",
   "    " ++ String.intercalate indented_item_sep
     ((sortMessages st.messages).map generate_mapping), "\x7d"]

/-- `_generate` up to the `write_file` call: the full list of lines of
the generated artifact. -/
def generate (year : Nat) (st : GenState) : List String :=
  generate_doc year ++ generate_imports st ++ generate_codes st ++
    generate_empties st ++ generate_classes st

/-- `_load_and_generate`: load the rows into the accumulators, then (only
if no exception escaped `_load`) produce the output lines. -/
def load_and_generate (env : ResolveEnv) (year : Nat) (st : GenState)
    (rows : List (List String)) : Except String (List String) :=
  (load env st rows).map (generate year)

/-- The destination file across one `run`: its previous contents stay in
place unless `_load_and_generate` completes, in which case `write_file`
replaces them. -/
def run_build (env : ResolveEnv) (year : Nat) (st : GenState)
    (rows : List (List String)) (prev : Option (List String)) :
    Option (List String) :=
  match load_and_generate env year st rows with
  | .ok contents => some contents
  | .error _ => prev

/-- Row-by-row parsing, the per-row part of `_load` without the
accumulator bookkeeping. -/
def parseRows (env : ResolveEnv) : List (List String) → Except String (List Message)
  | [] => .ok []
  | row :: rest =>
    match parseRow env row with
    | .ok m =>
      match parseRows env rest with
      | .ok ms => .ok (m :: ms)
      | .error e => .error e
    | .error e => .error e

/-- Numeric value of a digit list, most significant digit first. -/
def digitsToNat (l : List Char) : Nat :=
  l.foldl (fun a c => a * 10 + (c.toNat - 48)) 0

/-- The maximal space-free suffix of a character list. -/
def lastTok (l : List Char) : List Char :=
  (l.reverse.takeWhile (fun c => c != ' ')).reverse

/-- The identifier alphabet the spec requires of a derived constant
name: uppercase letters, digits, underscore. -/
def isIdentC (c : Char) : Bool := isUpperC c || isDigitC c || c = '_'

/-- The input alphabet the spec assumes: alphanumerics plus hyphen. -/
def isAlnumDashC (c : Char) : Bool :=
  isUpperC c || isLowerC c || isDigitC c || c = '-'

/-- Decidable equality on `Except`, used to evaluate the embedding on
concrete catalogs. -/
instance {ε α : Type} [DecidableEq ε] [DecidableEq α] : DecidableEq (Except ε α) :=
  fun x y =>
    match x, y with
    | .ok a, .ok b =>
      if h : a = b then .isTrue (by rw [h])
      else .isFalse (by intro hc; injection hc; contradiction)
    | .error e, .error f =>
      if h : e = f then .isTrue (by rw [h])
      else .isFalse (by intro hc; injection hc; contradiction)
    | .ok _, .error _ => .isFalse (fun hc => Except.noConfusion hc)
    | .error _, .ok _ => .isFalse (fun hc => Except.noConfusion hc)

/-- A CSV row on which `MessageCodeMapping(*row)` raises: wrong field
arity (`TypeError`) or a code field that is not an integer
(`ValueError`). -/
def malformed (row : List String) : Bool :=
  match row with
  | [code, _, _] => (parseInt code).isNone
  | _ => true

/-! ## Concrete fixtures (used to evaluate the theorems on real data) -/

/-- A small resolution environment: `riak_kv` resolves `RpbGetReq`,
`riak_yokozuna` resolves `RpbYokozunaSchemaPutReq`, nothing else
resolves (in particular `RpbPingReq` has no message class). -/
def envK : ResolveEnv := fun mo ms =>
  if mo = "riak_pb.riak_kv_pb2" && ms = "RpbGetReq" then some "RpbGetReq"
  else if mo = "riak_pb.riak_yokozuna_pb2" && ms = "RpbYokozunaSchemaPutReq" then
    some "RpbYokozunaSchemaPutReq"
  else none

/-- A two-row catalog, intentionally not in code order. -/
def rowsK : List (List String) := [["9", "RpbGetReq", "riak_kv"], ["1", "RpbPingReq", "riak"]]

/-- `rowsK` with its rows swapped. -/
def rowsKswap : List (List String) := [["1", "RpbPingReq", "riak"], ["9", "RpbGetReq", "riak_kv"]]

/-- The descriptor of row `9,RpbGetReq,riak_kv` (class resolves). -/
def mGet : Message := mkMessage envK 9 "RpbGetReq" "riak_kv"

/-- The descriptor of row `1,RpbPingReq,riak` (class does not resolve). -/
def mPing : Message := mkMessage envK 1 "RpbPingReq" "riak"

/-- The accumulator state `_load` reaches on `rowsK` from fresh state. -/
def stK : GenState :=
  ⟨["riak_pb.riak_kv_pb2", "riak_pb.riak_pb2"], [mGet, mPing], [mPing]⟩

/-- The accumulator state `_load` reaches on `rowsKswap` from fresh state. -/
def stKswap : GenState :=
  ⟨["riak_pb.riak_pb2", "riak_pb.riak_kv_pb2"], [mPing, mGet], [mPing]⟩

/-- A descriptor whose rendered mapping entry exceeds 76 characters (the
real catalog's `56,RpbYokozunaSchemaPutReq,riak_yokozuna` row). -/
def mLong : Message := mkMessage envK 56 "RpbYokozunaSchemaPutReq" "riak_yokozuna"

/-- A catalog containing a malformed row (wrong arity) and a row whose
code is not an integer. -/
def rowsBad : List (List String) :=
  [["1", "RpbPingReq", "riak"], ["abc", "RpbGetReq", "riak_kv"], ["2"]]

/-- A one-row catalog used to exhibit the leftover-state sensitivity. -/
def rowsP : List (List String) := [["1", "RpbPingReq", "riak"]]

/-- State after loading `rowsP` once from fresh state. -/
def stP1 : GenState := ⟨["riak_pb.riak_pb2"], [mPing], [mPing]⟩

/-- State after loading `rowsP` a second time on top of `stP1`: the
module string is deduplicated, but the `MessageCodeMapping` objects hash
by identity, so `_messages` and `_empty_responses` gain duplicates. -/
def stP2 : GenState := ⟨["riak_pb.riak_pb2"], [mPing, mPing], [mPing, mPing]⟩

/-! ## Helper lemmas: characters -/

theorem char_eq_of_toNat_eq {a b : Char} (h : a.toNat = b.toNat) : a = b := by
  apply Char.eq_of_val_eq
  apply UInt32.eq_of_toBitVec_eq
  apply BitVec.eq_of_toNat_eq
  exact h

theorem char_toNat_ofNat_small (n : Nat) (h : n < 55296) :
    (Char.ofNat n).toNat = n := by
  have hv : n.isValidChar := Or.inl h
  simp only [Char.ofNat, dif_pos hv, Char.ofNatAux, Char.toNat]
  simp [UInt32.toNat]

/-! ## Helper lemmas: the lexicographic order on strings -/

theorem listLe_total : ∀ a b : List Char, listLe a b = true ∨ listLe b a = true
  | [], _ => by left; rfl
  | _ :: _, [] => by right; rfl
  | a :: as, b :: bs => by
    simp only [listLe]
    rcases Nat.lt_trichotomy a.toNat b.toNat with h | h | h
    · left; simp [h]
    · have : ¬ a.toNat < b.toNat := by omega
      have : ¬ b.toNat < a.toNat := by omega
      rcases listLe_total as bs with ih | ih <;> [left; right] <;> simp_all
    · right; simp [h, Nat.lt_asymm h]

theorem listLe_trans : ∀ {a b c : List Char},
    listLe a b = true → listLe b c = true → listLe a c = true
  | [], _, _, _, _ => rfl
  | _ :: _, [], _, h, _ => by simp [listLe] at h
  | _ :: _, _ :: _, [], _, h => by simp [listLe] at h
  | a :: as, b :: bs, c :: cs, h1, h2 => by
    simp only [listLe] at h1 h2 ⊢
    rcases Nat.lt_trichotomy a.toNat b.toNat with hab | hab | hab
    · rcases Nat.lt_trichotomy b.toNat c.toNat with hbc | hbc | hbc
      · rw [if_pos (by omega)]
      · rw [if_pos (by omega)]
      · rw [if_neg (by omega), if_pos (by omega)] at h2; simp at h2
    · rcases Nat.lt_trichotomy b.toNat c.toNat with hbc | hbc | hbc
      · rw [if_pos (by omega)]
      · rw [if_neg (by omega), if_neg (by omega)] at h1
        rw [if_neg (by omega), if_neg (by omega)] at h2
        rw [if_neg (by omega), if_neg (by omega)]
        exact listLe_trans h1 h2
      · rw [if_neg (by omega), if_pos (by omega)] at h2; simp at h2
    · rw [if_neg (by omega), if_pos (by omega)] at h1; simp at h1

theorem listLe_antisymm : ∀ {a b : List Char},
    listLe a b = true → listLe b a = true → a = b
  | [], [], _, _ => rfl
  | [], _ :: _, _, h => by simp [listLe] at h
  | _ :: _, [], h, _ => by simp [listLe] at h
  | a :: as, b :: bs, h1, h2 => by
    simp only [listLe] at h1 h2
    rcases Nat.lt_trichotomy a.toNat b.toNat with hab | hab | hab
    · rw [if_neg (by omega), if_pos (by omega)] at h2; simp at h2
    · rw [if_neg (by omega), if_neg (by omega)] at h1
      rw [if_neg (by omega), if_neg (by omega)] at h2
      rw [char_eq_of_toNat_eq hab, listLe_antisymm h1 h2]
    · rw [if_neg (by omega), if_pos (by omega)] at h1; simp at h1

theorem strLe_total (a b : String) : strLe a b = true ∨ strLe b a = true :=
  listLe_total a.data b.data

theorem strLe_trans {a b c : String} (h1 : strLe a b = true)
    (h2 : strLe b c = true) : strLe a c = true :=
  listLe_trans h1 h2

theorem strLe_antisymm {a b : String} (h1 : strLe a b = true)
    (h2 : strLe b a = true) : a = b :=
  String.ext (listLe_antisymm h1 h2)

/-! ## Helper lemmas: the insertion sort -/

theorem insertLe_perm (le : α → α → Bool) (a : α) :
    ∀ l : List α, (insertLe le a l).Perm (a :: l)
  | [] => List.Perm.refl _
  | b :: bs => by
    simp only [insertLe]
    split
    · exact List.Perm.refl _
    · exact ((insertLe_perm le a bs).cons b).trans (List.Perm.swap a b bs)

theorem sortLe_perm (le : α → α → Bool) :
    ∀ l : List α, (sortLe le l).Perm l
  | [] => List.Perm.refl _
  | a :: as =>
    (insertLe_perm le a (sortLe le as)).trans ((sortLe_perm le as).cons a)

theorem insertLe_pairwise (le : α → α → Bool)
    (htot : ∀ a b, le a b = true ∨ le b a = true)
    (htr : ∀ {a b c}, le a b = true → le b c = true → le a c = true)
    (a : α) : ∀ {l : List α}, l.Pairwise (fun x y => le x y = true) →
      (insertLe le a l).Pairwise (fun x y => le x y = true)
  | [], _ => by simp [insertLe]
  | b :: bs, h => by
    rcases List.pairwise_cons.mp h with ⟨hb, hbs⟩
    simp only [insertLe]
    split
    · rename_i hab
      refine List.pairwise_cons.mpr ⟨?_, h⟩
      intro x hx
      rcases List.mem_cons.mp hx with rfl | hx
      · exact hab
      · exact htr hab (hb x hx)
    · rename_i hab
      have hba : le b a = true := by
        rcases htot a b with h' | h'
        · exact absurd h' hab
        · exact h'
      refine List.pairwise_cons.mpr ⟨?_, insertLe_pairwise le htot htr a hbs⟩
      intro x hx
      have hx' : x ∈ a :: bs := (insertLe_perm le a bs).mem_iff.mp hx
      rcases List.mem_cons.mp hx' with rfl | hx'
      · exact hba
      · exact hb x hx'

theorem sortLe_pairwise (le : α → α → Bool)
    (htot : ∀ a b, le a b = true ∨ le b a = true)
    (htr : ∀ {a b c}, le a b = true → le b c = true → le a c = true) :
    ∀ l : List α, (sortLe le l).Pairwise (fun x y => le x y = true)
  | [] => List.Pairwise.nil
  | a :: as =>
    insertLe_pairwise le htot htr a (sortLe_pairwise le htot htr as)

theorem msgLe_total (a b : Message) : msgLe a b = true ∨ msgLe b a = true := by
  simp only [msgLe, decide_eq_true_eq]
  omega

theorem msgLe_trans {a b c : Message} (h1 : msgLe a b = true)
    (h2 : msgLe b c = true) : msgLe a c = true := by
  simp only [msgLe, decide_eq_true_eq] at h1 h2 ⊢
  omega

theorem sortMessages_perm (l : List Message) : (sortMessages l).Perm l :=
  sortLe_perm msgLe l

theorem sortMessages_pairwise (l : List Message) :
    (sortMessages l).Pairwise (fun a b => msgLe a b = true) :=
  sortLe_pairwise msgLe msgLe_total (fun h1 h2 => msgLe_trans h1 h2) l

/-- With pairwise-distinct codes the code-sorted list is strictly
ascending. -/
theorem pairwise_lt_of_le_nodup {l : List Message}
    (hle : l.Pairwise (fun a b => msgLe a b = true))
    (hnd : (l.map Message.code).Nodup) :
    l.Pairwise (fun a b => a.code < b.code) := by
  have hne : l.Pairwise (fun a b : Message => a.code ≠ b.code) :=
    List.pairwise_map.mp hnd
  refine (hle.and hne).imp ?_
  intro a b hab
  rcases hab with ⟨h1, h2⟩
  simp only [msgLe, decide_eq_true_eq] at h1
  omega

/-- A strictly code-sorted permutation of a strictly code-sorted list is
the list itself. -/
theorem eq_of_perm_of_pairwise_lt {l1 l2 : List Message} (hp : l1.Perm l2)
    (h1 : l1.Pairwise (fun a b => a.code < b.code))
    (h2 : l2.Pairwise (fun a b => a.code < b.code)) : l1 = l2 :=
  @List.eq_of_perm_of_sorted _ _ ⟨fun _ _ hab hba => absurd hba (lt_asymm hab)⟩
    _ _ hp h1 h2

/-- A `strLe`-sorted permutation of a `strLe`-sorted string list is the
list itself. -/
theorem eq_of_perm_of_pairwise_strLe {l1 l2 : List String} (hp : l1.Perm l2)
    (h1 : l1.Pairwise (fun a b => strLe a b = true))
    (h2 : l2.Pairwise (fun a b => strLe a b = true)) : l1 = l2 :=
  @List.eq_of_perm_of_sorted _ _ ⟨fun _ _ hab hba => strLe_antisymm hab hba⟩
    _ _ hp h1 h2

/-! ## Helper lemmas: what `_load` accumulates -/

/-- `_load` succeeds exactly when every row parses, and then it appends
the parsed messages to `_messages`, the unresolved ones to
`_empty_responses`, and folds the module names into `_pb_imports` with
value-based deduplication. -/
theorem load_ok_iff (env : ResolveEnv) :
    ∀ (rows : List (List String)) (st st' : GenState),
      load env st rows = .ok st' ↔
        ∃ ms, parseRows env rows = .ok ms ∧
          st' = ⟨List.foldl insertImport st.pb_imports (ms.map Message.module_name),
                 st.messages ++ ms,
                 st.empty_responses ++ ms.filter (fun m => m.message_class.isNone)⟩
  | [], st, st' => by
    simp only [load, parseRows]
    constructor
    · intro h
      injection h with h
      exact ⟨[], rfl, by simp [← h]⟩
    · rintro ⟨ms, hms, hst⟩
      injection hms with hms
      subst hms
      rw [hst]
      simp
  | row :: rest, st, st' => by
    cases hpr : parseRow env row with
    | error e =>
      have h1 : load env st (row :: rest) = .error e := by
        simp [load, loadRow, hpr]
      have h2 : parseRows env (row :: rest) = .error e := by
        simp [parseRows, hpr]
      rw [h1, h2]
      constructor
      · intro h; exact Except.noConfusion h
      · rintro ⟨ms, hms, _⟩; exact Except.noConfusion hms
    | ok m =>
      have h1 : load env st (row :: rest) =
          load env ⟨insertImport st.pb_imports m.module_name, st.messages ++ [m],
            st.empty_responses ++ if m.message_class.isNone then [m] else []⟩
            rest := by
        simp [load, loadRow, hpr]
      rw [h1, load_ok_iff env rest]
      constructor
      · rintro ⟨ms, hms, hst⟩
        refine ⟨m :: ms, by simp [parseRows, hpr, hms], ?_⟩
        rw [hst]
        cases hmc : m.message_class.isNone <;>
          simp [hmc, List.filter_cons, List.append_assoc]
      · rintro ⟨ms, hms, hst⟩
        cases hrest : parseRows env rest with
        | error e => simp [parseRows, hpr, hrest] at hms
        | ok ms' =>
          have hcons : ms = m :: ms' := by
            simp [parseRows, hpr, hrest] at hms
            exact hms.symm
          subst hcons
          refine ⟨ms', rfl, ?_⟩
          rw [hst]
          cases hmc : m.message_class.isNone <;>
            simp [hmc, List.filter_cons, List.append_assoc]

/-- Membership after folding module names into the import set. -/
theorem mem_foldl_insertImport (x : String) :
    ∀ (names : List String) (acc : List String),
      x ∈ List.foldl insertImport acc names ↔ x ∈ acc ∨ x ∈ names
  | [], acc => by simp
  | n :: ns, acc => by
    simp only [List.foldl_cons]
    rw [mem_foldl_insertImport x ns]
    unfold insertImport
    split
    · rename_i hn
      constructor
      · rintro (h | h)
        · exact Or.inl h
        · exact Or.inr (List.mem_cons_of_mem _ h)
      · rintro (h | h)
        · exact Or.inl h
        · rcases List.mem_cons.mp h with rfl | h
          · exact Or.inl hn
          · exact Or.inr h
    · constructor
      · rintro (h | h)
        · rcases List.mem_append.mp h with h | h
          · exact Or.inl h
          · exact Or.inr (List.mem_cons.mpr (Or.inl (List.mem_singleton.mp h)))
        · exact Or.inr (List.mem_cons_of_mem _ h)
      · rintro (h | h)
        · exact Or.inl (List.mem_append.mpr (Or.inl h))
        · rcases List.mem_cons.mp h with rfl | h
          · exact Or.inl (List.mem_append.mpr (Or.inr (List.mem_singleton.mpr rfl)))
          · exact Or.inr h

/-- Folding module names into the import set keeps it duplicate-free. -/
theorem nodup_foldl_insertImport :
    ∀ (names : List String) (acc : List String), acc.Nodup →
      (List.foldl insertImport acc names).Nodup
  | [], _, h => h
  | n :: ns, acc, h => by
    simp only [List.foldl_cons]
    apply nodup_foldl_insertImport ns
    unfold insertImport
    split
    · exact h
    · rename_i hn
      simp [List.nodup_append, h, hn]

/-- If all rows parse, the parsed messages are the rows' images — the
form used to transport `_load` results along row permutations. -/
theorem parseRows_ok_filterMap (env : ResolveEnv) :
    ∀ {rows : List (List String)} {ms : List Message},
      parseRows env rows = .ok ms →
      ms = rows.filterMap (fun r => (parseRow env r).toOption)
  | [], ms, h => by
    simp only [parseRows] at h
    injection h with h
    simp [← h]
  | row :: rest, ms, h => by
    cases hpr : parseRow env row with
    | error e => simp [parseRows, hpr] at h
    | ok m =>
      cases hrest : parseRows env rest with
      | error e => simp [parseRows, hpr, hrest] at h
      | ok ms' =>
        have hcons : ms = m :: ms' := by
          simp [parseRows, hpr, hrest] at h
          exact h.symm
        subst hcons
        simp [List.filterMap_cons, hpr, Except.toOption,
          parseRows_ok_filterMap env hrest]

/-- If `_load`'s parsing pass succeeds, every row parses. -/
theorem parseRows_ok_row (env : ResolveEnv) :
    ∀ {rows : List (List String)} {ms : List Message},
      parseRows env rows = .ok ms →
      ∀ row ∈ rows, ∃ m, parseRow env row = .ok m
  | [], _, _ => by simp
  | row :: rest, ms, h => by
    cases hpr : parseRow env row with
    | error e => simp [parseRows, hpr] at h
    | ok m =>
      cases hrest : parseRows env rest with
      | error e => simp [parseRows, hpr, hrest] at h
      | ok ms' =>
        intro r hr
        rcases List.mem_cons.mp hr with rfl | hr
        · exact ⟨m, hpr⟩
        · exact parseRows_ok_row env hrest r hr

/-- If every row parses, one message is produced per row. -/
theorem parseRows_ok_length (env : ResolveEnv) :
    ∀ {rows : List (List String)} {ms : List Message},
      parseRows env rows = .ok ms → ms.length = rows.length
  | [], ms, h => by
    simp only [parseRows] at h
    injection h with h
    simp [← h]
  | row :: rest, ms, h => by
    cases hpr : parseRow env row with
    | error e => simp [parseRows, hpr] at h
    | ok m =>
      cases hrest : parseRows env rest with
      | error e => simp [parseRows, hpr, hrest] at h
      | ok ms' =>
        have hcons : ms = m :: ms' := by
          simp [parseRows, hpr, hrest] at h
          exact h.symm
        subst hcons
        simp [parseRows_ok_length env hrest]

/-! ## Helper lemmas: decimal rendering -/

theorem natDecFuel_digits :
    ∀ (fuel n : Nat), ∀ c ∈ natDecFuel fuel n, isDigitC c = true
  | 0, _, _, h => by simp [natDecFuel] at h
  | fuel + 1, n, c, h => by
    simp only [natDecFuel] at h
    split at h
    · simp at h
    · rcases List.mem_append.mp h with h | h
      · exact natDecFuel_digits fuel (n / 10) c h
      · have hc : c = Char.ofNat (48 + n % 10) := List.mem_singleton.mp h
        have hval : (Char.ofNat (48 + n % 10)).toNat = 48 + n % 10 :=
          char_toNat_ofNat_small _ (by omega)
        simp only [isDigitC, hc, hval]
        have : n % 10 < 10 := Nat.mod_lt _ (by omega)
        simp only [decide_eq_true_eq, Bool.and_eq_true]
        omega

theorem natDec_digits (n : Nat) : ∀ c ∈ natDec n, isDigitC c = true := by
  unfold natDec
  split
  · intro c hc
    have : c = '0' := List.mem_singleton.mp hc
    subst this
    decide
  · exact natDecFuel_digits n n

theorem digitsToNat_natDecFuel :
    ∀ (fuel n : Nat), n ≤ fuel → digitsToNat (natDecFuel fuel n) = n
  | 0, n, h => by
    have : n = 0 := by omega
    subst this
    rfl
  | fuel + 1, n, h => by
    simp only [natDecFuel]
    split
    · rename_i h0; rw [h0]; rfl
    · rename_i h0
      have hrec : digitsToNat (natDecFuel fuel (n / 10)) = n / 10 :=
        digitsToNat_natDecFuel fuel (n / 10) (by omega)
      simp only [digitsToNat] at hrec ⊢
      rw [List.foldl_append, hrec]
      simp only [List.foldl_cons, List.foldl_nil]
      rw [char_toNat_ofNat_small _ (by omega)]
      omega

theorem digitsToNat_natDec (n : Nat) : digitsToNat (natDec n) = n := by
  unfold natDec
  split
  · rename_i h0; rw [h0]; rfl
  · exact digitsToNat_natDecFuel n n le_rfl

theorem natDec_inj {a b : Nat} (h : natDec a = natDec b) : a = b := by
  rw [← digitsToNat_natDec a, ← digitsToNat_natDec b, h]

theorem intDec_inj {i j : Int} (h : intDec i = intDec j) : i = j := by
  unfold intDec at h
  split at h <;> split at h
  · rename_i hi hj
    injection h with _ h
    have := natDec_inj h
    omega
  · rename_i hi hj
    have hm : '-' ∈ natDec j.toNat := by
      rw [← h]; exact List.mem_cons_self _ _
    have := natDec_digits _ _ hm
    simp [isDigitC] at this
  · rename_i hi hj
    have hm : '-' ∈ natDec i.toNat := by
      rw [h]; exact List.mem_cons_self _ _
    have := natDec_digits _ _ hm
    simp [isDigitC] at this
  · rename_i hi hj
    have := natDec_inj h
    omega

theorem intDec_no_space {i : Int} : ∀ c ∈ intDec i, c ≠ ' ' := by
  unfold intDec
  split
  · intro c hc
    rcases List.mem_cons.mp hc with rfl | hc
    · decide
    · have := natDec_digits _ _ hc
      intro heq
      subst heq
      simp [isDigitC] at this
  · intro c hc
    have := natDec_digits _ _ hc
    intro heq
    subst heq
    simp [isDigitC] at this

/-! ## Helper lemmas: recovering the code from an emitted line -/

theorem takeWhile_append_of_all {p : α → Bool} :
    ∀ {l1 l2 : List α}, (∀ c ∈ l1, p c = true) →
      List.takeWhile p (l1 ++ l2) = l1 ++ List.takeWhile p l2
  | [], _, _ => by simp
  | c :: cs, l2, h => by
    have hc : p c = true := h c (List.mem_cons_self _ _)
    simp only [List.cons_append, List.takeWhile_cons, hc, if_true]
    rw [takeWhile_append_of_all (fun x hx => h x (List.mem_cons_of_mem _ hx))]

theorem lastTok_append (a x : List Char) (hx : ∀ c ∈ x, c ≠ ' ') :
    lastTok (a ++ ' ' :: x) = x := by
  unfold lastTok
  have h1 : (a ++ ' ' :: x).reverse = x.reverse ++ ' ' :: a.reverse := by
    simp
  rw [h1, takeWhile_append_of_all]
  · simp
  · intro c hc
    have := hx c (List.mem_reverse.mp hc)
    simp [this]

theorem code_line_inj {m1 m2 : Message} (h : code_line m1 = code_line m2) :
    m1.code = m2.code := by
  have hd := congrArg String.data h
  simp only [code_line, String.data_append] at hd
  have hsh : ∀ m : Message, m.message_code_name.data ++ " = ".data ++
      (String.mk (intDec m.code)).data =
      (m.message_code_name.data ++ [' ', '=']) ++ ' ' :: intDec m.code := by
    intro m
    show m.message_code_name.data ++ [' ', '=', ' '] ++ intDec m.code = _
    simp
  rw [hsh m1, hsh m2] at hd
  have ht := congrArg lastTok hd
  rw [lastTok_append _ _ intDec_no_space, lastTok_append _ _ intDec_no_space] at ht
  exact intDec_inj ht

/-- Strictly ascending codes make the emitted constant lines pairwise
distinct. -/
theorem nodup_map_code_line {l : List Message}
    (h : l.Pairwise (fun a b => a.code < b.code)) : (l.map code_line).Nodup := by
  rw [List.Nodup, List.pairwise_map]
  refine h.imp ?_
  intro a b hab heq
  have := code_line_inj heq
  omega

/-! ## Helper lemmas: character classes through the name derivation -/

theorem mem_stripRpb {l : List Char} : ∀ c ∈ stripRpb l, c ∈ l := by
  unfold stripRpb
  split
  · intro c hc
    exact List.mem_cons_of_mem _ (List.mem_cons_of_mem _ (List.mem_cons_of_mem _ hc))
  · intro c hc
    exact hc

theorem getLastD_cons_mem : ∀ (tw : List α) (t d : α), (t :: tw).getLastD d ∈ t :: tw
  | [], t, d => by simp
  | u :: us, t, d => by
    rw [List.getLastD_cons]
    exact List.mem_cons_of_mem _ (getLastD_cons_mem us u t)

theorem mem_of_mem_takeWhile {p : α → Bool} :
    ∀ {l : List α} {a : α}, a ∈ l.takeWhile p → a ∈ l
  | [], _, h => by simp [List.takeWhile] at h
  | c :: cs, a, h => by
    simp only [List.takeWhile_cons] at h
    split at h
    · rcases List.mem_cons.mp h with rfl | h
      · exact List.mem_cons_self _ _
      · exact List.mem_cons_of_mem _ (mem_of_mem_takeWhile h)
    · simp at h

theorem mem_of_mem_dropWhile {p : α → Bool} :
    ∀ {l : List α} {a : α}, a ∈ l.dropWhile p → a ∈ l
  | [], _, h => by simp [List.dropWhile] at h
  | c :: cs, a, h => by
    simp only [List.dropWhile_cons] at h
    split at h
    · exact List.mem_cons_of_mem _ (mem_of_mem_dropWhile h)
    · exact h

theorem mem_subAcronymFuel :
    ∀ (fuel : Nat) (l : List Char), ∀ c ∈ subAcronymFuel fuel l, c ∈ l ∨ c = '_'
  | 0, l => by
    intro c hc
    exact Or.inl hc
  | _ + 1, [] => by simp [subAcronymFuel]
  | fuel + 1, a :: cs => by
    intro c hc
    have tailcase : c ∈ a :: subAcronymFuel fuel cs → c ∈ a :: cs ∨ c = '_' := by
      intro hx
      rcases List.mem_cons.mp hx with rfl | hx
      · exact Or.inl (List.mem_cons_self _ _)
      · rcases mem_subAcronymFuel fuel cs c hx with hx | hx
        · exact Or.inl (List.mem_cons_of_mem _ hx)
        · exact Or.inr hx
    by_cases hup : isUpperC a = true
    · cases hdw : cs.dropWhile isUpperC with
      | nil =>
        cases htw : cs.takeWhile isUpperC with
        | nil =>
          simp only [subAcronymFuel, hup, if_true, hdw, htw] at hc
          exact tailcase hc
        | cons t tw =>
          simp only [subAcronymFuel, hup, if_true, hdw, htw] at hc
          exact tailcase hc
      | cons d ts =>
        cases htw : cs.takeWhile isUpperC with
        | nil =>
          simp only [subAcronymFuel, hup, if_true, hdw, htw] at hc
          exact tailcase hc
        | cons t tw =>
          by_cases hlow : isLowerC d = true
          · simp only [subAcronymFuel, hup, if_true, hdw, htw, hlow] at hc
            rcases List.mem_append.mp hc with h | h
            · rcases List.mem_cons.mp h with rfl | h
              · exact Or.inl (List.mem_cons_self _ _)
              · have h1 : c ∈ t :: tw := List.mem_of_mem_dropLast h
                rw [← htw] at h1
                exact Or.inl (List.mem_cons_of_mem _ (mem_of_mem_takeWhile h1))
            · rcases List.mem_cons.mp h with rfl | h
              · exact Or.inr rfl
              · rcases List.mem_cons.mp h with rfl | h
                · have h1 : (t :: tw).getLastD 'A' ∈ cs.takeWhile isUpperC := by
                    rw [htw]; exact getLastD_cons_mem tw t 'A'
                  exact Or.inl
                    (List.mem_cons_of_mem _ (mem_of_mem_takeWhile h1))
                · rcases List.mem_cons.mp h with rfl | h
                  · have h1 : c ∈ cs.dropWhile isUpperC := by
                      rw [hdw]; exact List.mem_cons_self _ _
                    exact Or.inl
                      (List.mem_cons_of_mem _ (mem_of_mem_dropWhile h1))
                  · rcases mem_subAcronymFuel fuel ts c h with h | h
                    · have h1 : c ∈ cs.dropWhile isUpperC := by
                        rw [hdw]; exact List.mem_cons_of_mem _ h
                      exact Or.inl
                        (List.mem_cons_of_mem _ (mem_of_mem_dropWhile h1))
                    · exact Or.inr h
          · simp only [subAcronymFuel, hup, if_true, hdw, htw,
              Bool.not_eq_true] at hlow
            simp only [subAcronymFuel, hup, if_true, hdw, htw, hlow,
              Bool.false_eq_true, if_false] at hc
            exact tailcase hc
    · simp only [Bool.not_eq_true] at hup
      simp only [subAcronymFuel, hup, Bool.false_eq_true, if_false] at hc
      exact tailcase hc

theorem mem_subAcronym {l : List Char} : ∀ c ∈ subAcronym l, c ∈ l ∨ c = '_' :=
  mem_subAcronymFuel l.length l

theorem mem_subCamel : ∀ (l : List Char), ∀ c ∈ subCamel l, c ∈ l ∨ c = '_'
  | [] => by simp [subCamel]
  | [b] => by simp [subCamel]
  | a :: d :: rest => by
    intro c hc
    simp only [subCamel] at hc
    split at hc
    · rcases List.mem_cons.mp hc with rfl | h
      · exact Or.inl (List.mem_cons_self _ _)
      · rcases List.mem_cons.mp h with rfl | h
        · exact Or.inr rfl
        · rcases List.mem_cons.mp h with rfl | h
          · exact Or.inl (List.mem_cons_of_mem _ (List.mem_cons_self _ _))
          · rcases mem_subCamel rest c h with h | h
            · exact Or.inl
                (List.mem_cons_of_mem _ (List.mem_cons_of_mem _ h))
            · exact Or.inr h
    · rcases List.mem_cons.mp hc with rfl | h
      · exact Or.inl (List.mem_cons_self _ _)
      · rcases mem_subCamel (d :: rest) c h with h | h
        · exact Or.inl (List.mem_cons_of_mem _ h)
        · exact Or.inr h

theorem isIdentC_asciiUpper_dash {c : Char} (h : isAlnumDashC c = true ∨ c = '_') :
    isIdentC (asciiUpper (dashToUnderscore c)) = true := by
  rcases h with h | rfl
  · by_cases hdash : c = '-'
    · subst hdash; decide
    · have hnd : dashToUnderscore c = c := by
        unfold dashToUnderscore
        rw [if_neg hdash]
      rw [hnd]
      simp only [isAlnumDashC, Bool.or_eq_true, Bool.and_eq_true,
        decide_eq_true_eq, isUpperC, isLowerC, isDigitC] at h
      unfold asciiUpper
      by_cases hlow : isLowerC c = true
      · rw [if_pos hlow]
        simp only [isLowerC, Bool.and_eq_true, decide_eq_true_eq] at hlow
        have hval : (Char.ofNat (c.toNat - 32)).toNat = c.toNat - 32 :=
          char_toNat_ofNat_small _ (by omega)
        simp only [isIdentC, isUpperC, isDigitC, Bool.or_eq_true,
          Bool.and_eq_true, decide_eq_true_eq, hval]
        exact Or.inl (Or.inl ⟨by omega, by omega⟩)
      · rw [if_neg hlow]
        have hlow' : ¬ (97 ≤ c.toNat ∧ c.toNat ≤ 122) := by
          intro hcon
          exact hlow (by
            simp only [isLowerC, Bool.and_eq_true, decide_eq_true_eq]
            exact hcon)
        simp only [isIdentC, isUpperC, isDigitC, Bool.or_eq_true,
          Bool.and_eq_true, decide_eq_true_eq]
        rcases h with ((hu | hl) | hd) | hdd
        · exact Or.inl (Or.inl hu)
        · exact absurd hl hlow'
        · exact Or.inl (Or.inr hd)
        · exact absurd hdd hdash
  · decide

/-! ## Additional lemmas: malformed rows abort the run -/

theorem parseRow_error_of_malformed (env : ResolveEnv) :
    ∀ {row : List String}, malformed row = true →
      ∃ e, parseRow env row = .error e
  | [], _ => ⟨_, rfl⟩
  | [_], _ => ⟨_, rfl⟩
  | [_, _], _ => ⟨_, rfl⟩
  | [code, b, c], h => by
    simp only [malformed] at h
    cases hp : parseInt code with
    | some v => rw [hp] at h; simp at h
    | none =>
      exact ⟨"ValueError: invalid literal for int()", by simp only [parseRow, hp]⟩
  | _ :: _ :: _ :: _ :: _, _ => ⟨_, rfl⟩

theorem load_error_of_malformed (env : ResolveEnv) (st : GenState)
    {rows : List (List String)} (h : ∃ row ∈ rows, malformed row = true) :
    ∃ e, load env st rows = .error e := by
  cases hload : load env st rows with
  | error e => exact ⟨e, rfl⟩
  | ok st' =>
    exfalso
    rcases (load_ok_iff env rows st st').mp hload with ⟨ms, hms, _⟩
    rcases h with ⟨row, hrow, hmal⟩
    rcases parseRows_ok_row env hms row hrow with ⟨m, hm⟩
    rcases parseRow_error_of_malformed env hmal with ⟨e, he⟩
    rw [hm] at he
    exact Except.noConfusion he

/-! ## The claims -/

/-- C1: `_message_code_name` maps `RpbErrorResp` to
`MSG_CODE_ERROR_RESP` (camelCase boundary rule) and `RpbGetClientIdReq`
to `MSG_CODE_GET_CLIENT_ID_REQ` (camelCase and acronym boundary
rules). -/
theorem C1_name_derivation_examples :
    message_code_name "RpbErrorResp" = "MSG_CODE_ERROR_RESP" ∧
    message_code_name "RpbGetClientIdReq" = "MSG_CODE_GET_CLIENT_ID_REQ" :=
  ⟨by decide, by decide⟩

/-- C10: the module reference computed by `MessageCodeMapping.__init__`
is exactly `"riak_pb." ++ proto ++ "_pb2"`, a function of the protocol
family alone, independent of the code and the message name. -/
theorem C10_module_name_from_proto (env : ResolveEnv) (code code' : Int)
    (message message' proto : String) :
    (mkMessage env code message proto).module_name = "riak_pb." ++ proto ++ "_pb2" ∧
    (mkMessage env code message proto).module_name =
      (mkMessage env code' message' proto).module_name :=
  ⟨rfl, rfl⟩

/-- C9: `_generate_mapping` emits the rendered `name: class` pair
unmodified when its length is at most 76 characters, and re-joins its
space-separated words with a newline plus four spaces exactly when the
rendering exceeds 76 characters. -/
theorem C9_mapping_line_wrap (m : Message) :
    ((m.message_code_name ++ ": " ++ klass_str m).length ≤ 76 →
      generate_mapping m = m.message_code_name ++ ": " ++ klass_str m) ∧
    (76 < (m.message_code_name ++ ": " ++ klass_str m).length →
      generate_mapping m = String.intercalate (linesep ++ "    ")
        ((splitSpace (m.message_code_name ++ ": " ++ klass_str m).data).map
          String.mk)) := by
  constructor
  · intro h
    unfold generate_mapping mapping_pair
    dsimp only
    rw [if_neg (by omega)]
  · intro h
    unfold generate_mapping mapping_pair
    dsimp only
    rw [if_pos (by omega)]

/-- Witness for C9: the real catalog's `RpbGetReq` entry (47 characters)
is emitted unchanged, while the `RpbYokozunaSchemaPutReq` entry (81
characters) is wrapped. -/
theorem C9_mapping_line_wrap_witness :
    ((mGet.message_code_name ++ ": " ++ klass_str mGet).length ≤ 76 ∧
      generate_mapping mGet = mGet.message_code_name ++ ": " ++ klass_str mGet) ∧
    (76 < (mLong.message_code_name ++ ": " ++ klass_str mLong).length ∧
      generate_mapping mLong = String.intercalate (linesep ++ "    ")
        ((splitSpace (mLong.message_code_name ++ ": " ++ klass_str mLong).data).map
          String.mk)) :=
  ⟨⟨by decide, (C9_mapping_line_wrap mGet).1 (by decide)⟩,
   ⟨by decide, (C9_mapping_line_wrap mLong).2 (by decide)⟩⟩

/-- C7: a catalog containing a malformed row (wrong arity or
non-integer code) makes `_load_and_generate` raise, so `run` leaves the
destination file exactly as it was: no partial output. -/
theorem C7_malformed_aborts (env : ResolveEnv) (year : Nat) (st : GenState)
    (prev : Option (List String)) (rows : List (List String))
    (h : ∃ row ∈ rows, malformed row = true) :
    (∃ e, load_and_generate env year st rows = .error e) ∧
    run_build env year st rows prev = prev := by
  rcases load_error_of_malformed env st h with ⟨e, he⟩
  refine ⟨⟨e, ?_⟩, ?_⟩
  · simp [load_and_generate, he, Except.map]
  · simp [run_build, load_and_generate, he, Except.map]

/-- Witness for C7: a catalog with a non-integer code and a two-field
row aborts, leaving the previous destination contents untouched. -/
theorem C7_malformed_aborts_witness :
    (∃ row ∈ rowsBad, malformed row = true) ∧
    ((∃ e, load_and_generate envK 2013 emptyState rowsBad = .error e) ∧
      run_build envK 2013 emptyState rowsBad (some ["previous contents"]) =
        some ["previous contents"]) :=
  ⟨by decide,
   C7_malformed_aborts envK 2013 emptyState (some ["previous contents"])
     rowsBad (by decide)⟩

/-- C8: on an input of alphanumerics and hyphens,
`_message_code_name` (a pure function) produces a valid identifier —
every character is an uppercase letter, a digit or an underscore, and
the result begins with the (uppercase) letter `M`. -/
theorem C8_valid_identifier (s : String)
    (h : ∀ c ∈ s.data, isAlnumDashC c = true) :
    (∀ c ∈ (message_code_name s).data, isIdentC c = true) ∧
    (message_code_name s).data.head? = some 'M' ∧ isUpperC 'M' = true := by
  have hpre : ("MSG_CODE_" : String).data =
      ['M', 'S', 'G', '_', 'C', 'O', 'D', 'E', '_'] := rfl
  refine ⟨?_, ?_, by decide⟩
  · intro c hc
    simp only [message_code_name, String.data_append, hpre] at hc
    rcases List.mem_append.mp hc with h1 | h1
    · fin_cases h1 <;> decide
    · rcases List.mem_map.mp h1 with ⟨c1, hc1, rfl⟩
      rcases List.mem_map.mp hc1 with ⟨c2, hc2, rfl⟩
      apply isIdentC_asciiUpper_dash
      rcases mem_subCamel _ c2 hc2 with h2 | h2
      · rcases mem_subAcronym c2 h2 with h3 | h3
        · exact Or.inl (h c2 (mem_stripRpb c2 h3))
        · exact Or.inr h3
      · exact Or.inr h2
  · simp only [message_code_name, String.data_append, hpre]
    rfl

/-- Witness for C8: the identifier property evaluated on
`RpbGetClientIdReq`. -/
theorem C8_valid_identifier_witness :
    (∀ c ∈ ("RpbGetClientIdReq" : String).data, isAlnumDashC c = true) ∧
    ((∀ c ∈ (message_code_name "RpbGetClientIdReq").data, isIdentC c = true) ∧
      (message_code_name "RpbGetClientIdReq").data.head? = some 'M' ∧
      isUpperC 'M' = true) :=
  ⟨by decide, C8_valid_identifier "RpbGetClientIdReq" (by decide)⟩

/-- `_load` from fresh accumulators: the messages are exactly the parsed
rows, the empty responses are exactly the unresolved messages, and the
set of imports is the deduplicated fold of the module names. -/
theorem load_fresh_spec (env : ResolveEnv) (rows : List (List String))
    (st : GenState) (hld : load env emptyState rows = .ok st) :
    parseRows env rows = .ok st.messages ∧
    st.empty_responses = st.messages.filter (fun m => m.message_class.isNone) ∧
    st.pb_imports = List.foldl insertImport [] (st.messages.map Message.module_name) := by
  rcases (load_ok_iff env rows emptyState st).mp hld with ⟨ms, hms, hstd⟩
  have hmsgs : st.messages = ms := by rw [hstd]; simp [emptyState]
  refine ⟨by rw [hmsgs]; exact hms, ?_, ?_⟩
  · rw [hstd]
    simp [emptyState]
  · rw [hstd]
    simp [emptyState]

/-- C3: on a fresh run over a catalog whose codes are pairwise
distinct, the constant table `_generate_codes` emits has one line per
input row, its underlying message sequence is strictly ascending by
code, and no line is duplicated. -/
theorem C3_codes_table (env : ResolveEnv) (rows : List (List String))
    (st : GenState) (hld : load env emptyState rows = .ok st)
    (hnd : (st.messages.map Message.code).Nodup) :
    (codes_lines st).length = rows.length ∧
    ((sortMessages st.messages).map Message.code).Pairwise (· < ·) ∧
    (codes_lines st).Nodup := by
  rcases (load_ok_iff env rows emptyState st).mp hld with ⟨ms, hms, hstd⟩
  have hmsgs : st.messages = ms := by rw [hstd]; simp [emptyState]
  have hndsort : ((sortMessages st.messages).map Message.code).Nodup :=
    (((sortMessages_perm st.messages).map Message.code).nodup_iff).mpr hnd
  have hstrict : (sortMessages st.messages).Pairwise
      (fun a b => a.code < b.code) :=
    pairwise_lt_of_le_nodup (sortMessages_pairwise _) hndsort
  refine ⟨?_, ?_, ?_⟩
  · unfold codes_lines
    rw [List.length_map, (sortMessages_perm st.messages).length_eq, hmsgs]
    exact parseRows_ok_length env hms
  · exact List.pairwise_map.mpr hstrict
  · exact nodup_map_code_line hstrict

/-- Witness for C3 on the two-row catalog `rowsK`. -/
theorem C3_codes_table_witness :
    (load envK emptyState rowsK = .ok stK ∧
      (stK.messages.map Message.code).Nodup) ∧
    ((codes_lines stK).length = rowsK.length ∧
      ((sortMessages stK.messages).map Message.code).Pairwise (· < ·) ∧
      (codes_lines stK).Nodup) :=
  ⟨⟨by decide, by decide⟩, C3_codes_table envK rowsK stK (by decide) (by decide)⟩

/-- C2: on a fresh run, when the derived constant names are pairwise
distinct, every unresolved descriptor's name is listed in
`EMPTY_RESPONSES` and is mapped to `None` in `MESSAGE_CLASSES`, while
every resolved descriptor is mapped to its fully-qualified class
reference and its name is absent from `EMPTY_RESPONSES`. -/
theorem C2_empty_partition (env : ResolveEnv) (rows : List (List String))
    (st : GenState) (hld : load env emptyState rows = .ok st)
    (hdn : (st.messages.map Message.message_code_name).Nodup)
    (m : Message) (hm : m ∈ st.messages) :
    (m.message_class = none →
      m.message_code_name ∈ empty_names st ∧
      (m.message_code_name, "None") ∈ mapping_pairs st) ∧
    (∀ k, m.message_class = some k →
      (m.message_code_name, m.module_name ++ "." ++ k) ∈ mapping_pairs st ∧
      m.message_code_name ∉ empty_names st) := by
  rcases load_fresh_spec env rows st hld with ⟨_, hemp, _⟩
  constructor
  · intro hnone
    have hmem_emp : m ∈ st.empty_responses := by
      rw [hemp]
      exact List.mem_filter.mpr ⟨hm, by simp [hnone]⟩
    constructor
    · exact List.mem_map.mpr
        ⟨m, (sortMessages_perm _).mem_iff.mpr hmem_emp, rfl⟩
    · refine List.mem_map.mpr ⟨m, (sortMessages_perm _).mem_iff.mpr hm, ?_⟩
      unfold mapping_pair klass_str
      rw [hnone]
  · intro k hk
    constructor
    · refine List.mem_map.mpr ⟨m, (sortMessages_perm _).mem_iff.mpr hm, ?_⟩
      unfold mapping_pair klass_str
      rw [hk]
    · intro hcon
      rcases List.mem_map.mp hcon with ⟨m', hm', heq⟩
      have hm'emp : m' ∈ st.empty_responses :=
        (sortMessages_perm _).mem_iff.mp hm'
      rw [hemp] at hm'emp
      have hm'msgs : m' ∈ st.messages := (List.mem_filter.mp hm'emp).1
      have hm'none : m'.message_class = none := by
        have := (List.mem_filter.mp hm'emp).2
        simpa [Option.isNone_iff_eq_none] using this
      have hmm : m' = m := List.inj_on_of_nodup_map hdn hm'msgs hm heq
      rw [hmm, hk] at hm'none
      exact Option.noConfusion hm'none

/-- Witness for C2 on `rowsK`: `RpbPingReq` does not resolve and is an
empty response mapped to `None`; `RpbGetReq` resolves and is mapped to
its qualified class, staying out of `EMPTY_RESPONSES`. -/
theorem C2_empty_partition_witness :
    (load envK emptyState rowsK = .ok stK ∧
      (stK.messages.map Message.message_code_name).Nodup ∧
      mPing ∈ stK.messages ∧ mGet ∈ stK.messages ∧
      mPing.message_class = none ∧ mGet.message_class = some "RpbGetReq") ∧
    (mPing.message_code_name ∈ empty_names stK ∧
      (mPing.message_code_name, "None") ∈ mapping_pairs stK) ∧
    ((mGet.message_code_name, mGet.module_name ++ "." ++ "RpbGetReq") ∈
        mapping_pairs stK ∧
      mGet.message_code_name ∉ empty_names stK) :=
  ⟨⟨by decide, by decide, by decide, by decide, by decide, by decide⟩,
   (C2_empty_partition envK rowsK stK (by decide) (by decide) mPing
      (by decide)).1 (by decide),
   (C2_empty_partition envK rowsK stK (by decide) (by decide) mGet
      (by decide)).2 "RpbGetReq" (by decide)⟩

/-- C6: on a fresh run with pairwise-distinct codes, the emitted
`MESSAGE_CLASSES` association has exactly one entry per descriptor, its
underlying message sequence is in strictly ascending code order, and
every descriptor's entry carries its qualified class reference when
resolution succeeded and the explicit `None` marker (never an omitted
entry) when it did not. -/
theorem C6_mapping_covers (env : ResolveEnv) (rows : List (List String))
    (st : GenState) (_hld : load env emptyState rows = .ok st)
    (hnd : (st.messages.map Message.code).Nodup) :
    (mapping_pairs st).length = st.messages.length ∧
    ((sortMessages st.messages).map Message.code).Pairwise (· < ·) ∧
    (∀ m ∈ st.messages,
      (m.message_code_name, klass_str m) ∈ mapping_pairs st ∧
      (m.message_class = none → klass_str m = "None") ∧
      (∀ k, m.message_class = some k →
        klass_str m = m.module_name ++ "." ++ k)) := by
  have hndsort : ((sortMessages st.messages).map Message.code).Nodup :=
    (((sortMessages_perm st.messages).map Message.code).nodup_iff).mpr hnd
  have hstrict : (sortMessages st.messages).Pairwise
      (fun a b => a.code < b.code) :=
    pairwise_lt_of_le_nodup (sortMessages_pairwise _) hndsort
  refine ⟨?_, List.pairwise_map.mpr hstrict, ?_⟩
  · unfold mapping_pairs
    rw [List.length_map, (sortMessages_perm st.messages).length_eq]
  · intro m hm
    refine ⟨?_, ?_, ?_⟩
    · exact List.mem_map.mpr ⟨m, (sortMessages_perm _).mem_iff.mpr hm, rfl⟩
    · intro hnone
      unfold klass_str
      rw [hnone]
    · intro k hk
      unfold klass_str
      rw [hk]

/-- Witness for C6 on `rowsK`. -/
theorem C6_mapping_covers_witness :
    (load envK emptyState rowsK = .ok stK ∧
      (stK.messages.map Message.code).Nodup) ∧
    ((mapping_pairs stK).length = stK.messages.length ∧
      ((sortMessages stK.messages).map Message.code).Pairwise (· < ·) ∧
      (∀ m ∈ stK.messages,
        (m.message_code_name, klass_str m) ∈ mapping_pairs stK ∧
        (m.message_class = none → klass_str m = "None") ∧
        (∀ k, m.message_class = some k →
          klass_str m = m.module_name ++ "." ++ k))) :=
  ⟨⟨by decide, by decide⟩, C6_mapping_covers envK rowsK stK (by decide) (by decide)⟩

/-- Prefixing both sides with the same characters does not change the
lexicographic comparison. -/
theorem listLe_append_same : ∀ (p x y : List Char), listLe (p ++ x) (p ++ y) = listLe x y
  | [], _, _ => rfl
  | c :: p', x, y => by
    simp only [List.cons_append, listLe]
    rw [if_neg (lt_irrefl _), if_neg (lt_irrefl _)]
    exact listLe_append_same p' x y

theorem import_line_inj {a b : String} (h : "import " ++ a = "import " ++ b) :
    a = b := by
  have hd := congrArg String.data h
  simp only [String.data_append] at hd
  exact String.ext (List.append_cancel_left hd)

/-- C5: on a fresh run, the emitted import lines are duplicate-free and
alphabetically sorted, they are exactly one `import` line per distinct
module reference among the descriptors, and they do not depend on the
order of the input rows. -/
theorem C5_imports (env : ResolveEnv) (rows rows' : List (List String))
    (st st' : GenState)
    (h1 : load env emptyState rows = .ok st)
    (h2 : load env emptyState rows' = .ok st')
    (hperm : rows.Perm rows') :
    (generate_imports st).Nodup ∧
    (generate_imports st).Pairwise (fun a b => strLe a b = true) ∧
    (∀ l, l ∈ generate_imports st ↔
      ∃ m ∈ st.messages, l = "import " ++ m.module_name) ∧
    generate_imports st' = generate_imports st := by
  rcases load_fresh_spec env rows st h1 with ⟨hp1, _, him1⟩
  rcases load_fresh_spec env rows' st' h2 with ⟨hp2, _, him2⟩
  have hnd1 : st.pb_imports.Nodup := by
    rw [him1]; exact nodup_foldl_insertImport _ _ List.nodup_nil
  have hnd2 : st'.pb_imports.Nodup := by
    rw [him2]; exact nodup_foldl_insertImport _ _ List.nodup_nil
  have hsortnd1 : (sortLe strLe st.pb_imports).Nodup :=
    ((sortLe_perm strLe _).nodup_iff).mpr hnd1
  have hpair : ∀ l : List String, (sortLe strLe l).Pairwise
      (fun a b => strLe a b = true) :=
    sortLe_pairwise strLe strLe_total (fun hab hbc => strLe_trans hab hbc)
  have hmsgperm : st.messages.Perm st'.messages := by
    rw [parseRows_ok_filterMap env hp1, parseRows_ok_filterMap env hp2]
    exact hperm.filterMap _
  have hmem : ∀ x, x ∈ st.pb_imports ↔ x ∈ st'.pb_imports := by
    intro x
    rw [him1, him2, mem_foldl_insertImport, mem_foldl_insertImport]
    simp only [List.not_mem_nil, false_or]
    exact (hmsgperm.map Message.module_name).mem_iff
  have himpperm : st.pb_imports.Perm st'.pb_imports :=
    List.perm_of_nodup_nodup_toFinset_eq hnd1 hnd2
      (by ext a; simp only [List.mem_toFinset]; exact hmem a)
  have hsorteq : sortLe strLe st'.pb_imports = sortLe strLe st.pb_imports :=
    eq_of_perm_of_pairwise_strLe
      ((sortLe_perm strLe _).trans (himpperm.symm.trans (sortLe_perm strLe _).symm))
      (hpair _) (hpair _)
  refine ⟨?_, ?_, ?_, ?_⟩
  · unfold generate_imports
    exact hsortnd1.map (fun a b hab => import_line_inj hab)
  · unfold generate_imports
    rw [List.pairwise_map]
    refine (hpair st.pb_imports).imp ?_
    intro a b hab
    unfold strLe at hab ⊢
    simp only [String.data_append]
    rw [listLe_append_same]
    exact hab
  · intro l
    unfold generate_imports
    rw [List.mem_map]
    constructor
    · rintro ⟨im, him, rfl⟩
      have hmem' : im ∈ st.pb_imports := (sortLe_perm strLe _).mem_iff.mp him
      rw [him1, mem_foldl_insertImport] at hmem'
      simp only [List.not_mem_nil, false_or] at hmem'
      rcases List.mem_map.mp hmem' with ⟨m, hm, rfl⟩
      exact ⟨m, hm, rfl⟩
    · rintro ⟨m, hm, rfl⟩
      refine ⟨m.module_name, ?_, rfl⟩
      apply (sortLe_perm strLe _).mem_iff.mpr
      rw [him1, mem_foldl_insertImport]
      exact Or.inr (List.mem_map.mpr ⟨m, hm, rfl⟩)
  · unfold generate_imports
    rw [hsorteq]

/-- Witness for C5: the two-row catalog in both orders. -/
theorem C5_imports_witness :
    (load envK emptyState rowsK = .ok stK ∧
      load envK emptyState rowsKswap = .ok stKswap ∧ rowsK.Perm rowsKswap) ∧
    ((generate_imports stK).Nodup ∧
      (generate_imports stK).Pairwise (fun a b => strLe a b = true) ∧
      (∀ l, l ∈ generate_imports stK ↔
        ∃ m ∈ stK.messages, l = "import " ++ m.module_name) ∧
      generate_imports stKswap = generate_imports stK) :=
  ⟨⟨by decide, by decide, by decide⟩,
   C5_imports envK rowsK rowsKswap stK stKswap (by decide) (by decide)
     (by decide)⟩

set_option maxRecDepth 8192 in
/-- C4 counterexample: the accumulator sets are class-level state that
`run` never resets, so generating a second time in the same process —
`_load` running on top of the state left by the first run — duplicates
the `MessageCodeMapping` objects (identity-based hashing) and produces
different output than the first run on the identical one-row catalog.
The generated text is therefore not a function of the input set alone. -/
theorem C4_leftover_state_counterexample :
    load envK emptyState rowsP = .ok stP1 ∧
    load envK stP1 rowsP = .ok stP2 ∧
    generate 2013 stP2 ≠ generate 2013 stP1 :=
  ⟨by decide, by decide, by decide⟩

/-- C4 as amended: from the *empty* accumulator state, the generated
output is a pure, deterministic function of the input row set — loading
any permutation of the rows (codes pairwise distinct) from fresh state
yields byte-identical output for the same substituted year. -/
theorem C4_fresh_run_deterministic (env : ResolveEnv) (year : Nat)
    (rows rows' : List (List String)) (st st' : GenState)
    (h1 : load env emptyState rows = .ok st)
    (h2 : load env emptyState rows' = .ok st')
    (hperm : rows.Perm rows')
    (hnd : (st.messages.map Message.code).Nodup) :
    generate year st = generate year st' := by
  rcases load_fresh_spec env rows st h1 with ⟨hp1, hemp1, him1⟩
  rcases load_fresh_spec env rows' st' h2 with ⟨hp2, hemp2, him2⟩
  have hmsgperm : st.messages.Perm st'.messages := by
    rw [parseRows_ok_filterMap env hp1, parseRows_ok_filterMap env hp2]
    exact hperm.filterMap _
  have hnd' : (st'.messages.map Message.code).Nodup :=
    ((hmsgperm.map Message.code).nodup_iff).mp hnd
  have hstrict1 : (sortMessages st.messages).Pairwise
      (fun a b => a.code < b.code) :=
    pairwise_lt_of_le_nodup (sortMessages_pairwise _)
      (((sortMessages_perm st.messages).map Message.code).nodup_iff.mpr hnd)
  have hstrict2 : (sortMessages st'.messages).Pairwise
      (fun a b => a.code < b.code) :=
    pairwise_lt_of_le_nodup (sortMessages_pairwise _)
      (((sortMessages_perm st'.messages).map Message.code).nodup_iff.mpr hnd')
  have hsorteqm : sortMessages st'.messages = sortMessages st.messages :=
    eq_of_perm_of_pairwise_lt
      ((sortMessages_perm _).trans (hmsgperm.symm.trans (sortMessages_perm _).symm))
      hstrict2 hstrict1
  have hempperm : st.empty_responses.Perm st'.empty_responses := by
    rw [hemp1, hemp2]
    exact hmsgperm.filter _
  have hence1 : ((sortMessages st.empty_responses).map Message.code).Nodup := by
    apply ((sortMessages_perm st.empty_responses).map Message.code).nodup_iff.mpr
    rw [hemp1]
    exact ((List.filter_sublist st.messages).map Message.code).nodup hnd
  have hence2 : ((sortMessages st'.empty_responses).map Message.code).Nodup := by
    apply ((sortMessages_perm st'.empty_responses).map Message.code).nodup_iff.mpr
    rw [hemp2]
    exact ((List.filter_sublist st'.messages).map Message.code).nodup hnd'
  have hsorteqe : sortMessages st'.empty_responses =
      sortMessages st.empty_responses :=
    eq_of_perm_of_pairwise_lt
      ((sortMessages_perm _).trans (hempperm.symm.trans (sortMessages_perm _).symm))
      (pairwise_lt_of_le_nodup (sortMessages_pairwise _) hence2)
      (pairwise_lt_of_le_nodup (sortMessages_pairwise _) hence1)
  have hnd1 : st.pb_imports.Nodup := by
    rw [him1]; exact nodup_foldl_insertImport _ _ List.nodup_nil
  have hnd2 : st'.pb_imports.Nodup := by
    rw [him2]; exact nodup_foldl_insertImport _ _ List.nodup_nil
  have himpperm : st.pb_imports.Perm st'.pb_imports :=
    List.perm_of_nodup_nodup_toFinset_eq hnd1 hnd2 (by
      ext a
      simp only [List.mem_toFinset]
      rw [him1, him2, mem_foldl_insertImport, mem_foldl_insertImport]
      simp only [List.not_mem_nil, false_or]
      exact (hmsgperm.map Message.module_name).mem_iff)
  have hpair : ∀ l : List String, (sortLe strLe l).Pairwise
      (fun a b => strLe a b = true) :=
    sortLe_pairwise strLe strLe_total (fun hab hbc => strLe_trans hab hbc)
  have hsorteqi : sortLe strLe st'.pb_imports = sortLe strLe st.pb_imports :=
    eq_of_perm_of_pairwise_strLe
      ((sortLe_perm strLe _).trans (himpperm.symm.trans (sortLe_perm strLe _).symm))
      (hpair _) (hpair _)
  unfold generate generate_doc generate_imports generate_codes codes_lines
    generate_empties empty_names generate_classes
  rw [hsorteqm, hsorteqe, hsorteqi]

/-- Witness for the amended C4: the two-row catalog in both orders
produces identical output from fresh state. -/
theorem C4_fresh_run_deterministic_witness :
    (load envK emptyState rowsK = .ok stK ∧
      load envK emptyState rowsKswap = .ok stKswap ∧
      rowsK.Perm rowsKswap ∧ (stK.messages.map Message.code).Nodup) ∧
    generate 2013 stK = generate 2013 stKswap :=
  ⟨⟨by decide, by decide, by decide, by decide⟩,
   C4_fresh_run_deterministic envK 2013 rowsK rowsKswap stK stKswap
     (by decide) (by decide) (by decide) (by decide)⟩

end MsgCodeGen
